import Mathlib

/-!
Verification of the parcel-reconciliation program (CSV owners list vs GeoJSON
parcel geometries).

Shallow embedding conventions:
* Python strings are Lean `String`s; character classes of the regular
  expression `(\d{5})\s*([A-Z]+)\s*(\d+)` are modelled with `Char.isDigit`,
  `Char.isWhitespace` and `Char.isUpper` (the ASCII reading of `\d`, `\s`,
  `[A-Z]`; all inputs of interest are ASCII).
* Python `re.match` anchors at the start only.  On this particular pattern,
  greedy matching with backtracking coincides with maximal munch, because the
  character classes of consecutive atoms are pairwise disjoint: `\s*` cannot
  give back a character to `[A-Z]+` (whitespace is not uppercase), `[A-Z]+`
  cannot give one to `\s*` or `\d+`, and the trailing `\d+` is last.  The
  function `parseRaw` below implements that maximal-munch reading.
* Python `dict`s are insertion-ordered association lists `List (String × α)`
  without duplicate keys; `setEntry` is `d[k] = v` (update in place, or append
  a fresh key at the end), `getEntry` is `d.get(k)`.
* Fallible code returns `Except`/`Option`; `raise X from context` is modelled
  by an error value listing the message chain.  `logging.error` calls are
  modelled as an explicit list of emitted messages.
* File contents are modelled at the record level: a CSV file is its list of
  rows (each row a list of fields); the `csv` module writer/reader pair is
  assumed inverse on fields (it quotes embedded separators).
-/

deriving instance DecidableEq for Except

/-! ### Identifier normalizer (src/csv_handler.py, format_id_csv_column) -/

/-- Result of matching the pattern `(\d{5})\s*([A-Z]+)\s*(\d+)` against the
start of a character list: the three captured groups plus the unmatched
remainder of the input.  Returns `none` when the pattern does not match. -/
def parseRaw (cs : List Char) : Option (List Char × List Char × List Char × List Char) :=
  let d5 := cs.take 5
  if d5.length = 5 ∧ (∀ c ∈ d5, c.isDigit = true) then
    let rest1 := (cs.drop 5).dropWhile Char.isWhitespace
    let sec := rest1.takeWhile Char.isUpper
    if sec = [] then none
    else
      let rest2 := (rest1.dropWhile Char.isUpper).dropWhile Char.isWhitespace
      let par := rest2.takeWhile Char.isDigit
      if par = [] then none
      else some (d5, sec, par, rest2.dropWhile Char.isDigit)
  else none

/-- Python `str.zfill 4`: left-pad with `'0'` to width 4; longer inputs are
returned unchanged. -/
def zfill4 (p : List Char) : List Char := List.replicate (4 - p.length) '0' ++ p

/-- The fixed generic message re-raised by `process_csv` when a row has a
malformed identifier. -/
def invalidIdMsg : String :=
  "Invalid ID format found. Check the CSV file for errors or choose another column for the ID."

/-- Embedding of `format_id_csv_column` (src/csv_handler.py).  On a regex
match it returns the insee code, `"0000"` or `"000"` depending on the section
length, the section letters and the parcel number padded to 4 digits; on a
failed match it raises `ValueError("Invalid ID format: " + raw)` (the
`logging.error` call on that path is accounted for at the call site in
`process_csv` below). -/
def format_id_csv_column (s : String) : Except String String :=
  match parseRaw s.data with
  | some (insee, sec, par, _) =>
      let zeros : List Char := if sec.length = 1 then ['0', '0', '0', '0'] else ['0', '0', '0']
      .ok ⟨insee ++ zeros ++ sec ++ zfill4 par⟩
  | none => .error ("Invalid ID format: " ++ s)

/-! ### Character-class disjointness facts -/

theorem isWhitespace_cases {c : Char} (h : c.isWhitespace = true) :
    c = ' ' ∨ c = '\t' ∨ c = '\r' ∨ c = '\n' := by
  have h' := h
  simp only [Char.isWhitespace, Bool.or_eq_true, decide_eq_true_eq] at h'
  tauto

theorem isUpper_not_ws {c : Char} (h : c.isUpper = true) : c.isWhitespace = false := by
  by_contra hw
  rcases isWhitespace_cases (by simpa using Bool.of_not_eq_false hw) with h' | h' | h' | h' <;>
    subst h' <;> simp_all

theorem isDigit_not_ws {c : Char} (h : c.isDigit = true) : c.isWhitespace = false := by
  by_contra hw
  rcases isWhitespace_cases (by simpa using Bool.of_not_eq_false hw) with h' | h' | h' | h' <;>
    subst h' <;> simp_all

theorem ws_not_upper {c : Char} (h : c.isWhitespace = true) : c.isUpper = false := by
  rcases isWhitespace_cases h with h' | h' | h' | h' <;> subst h' <;> decide

theorem isDigit_not_upper {c : Char} (h : c.isDigit = true) : c.isUpper = false := by
  cases hu : c.isUpper
  · rfl
  · simp only [Char.isDigit, Bool.and_eq_true, decide_eq_true_eq, ge_iff_le] at h
    simp only [Char.isUpper, Bool.and_eq_true, decide_eq_true_eq, ge_iff_le] at hu
    exact absurd (UInt32.le_trans hu.1 h.2) (by decide)

/-! ### List span helpers -/

theorem takeWhile_dropWhile_append {p : Char → Bool} {a b : List Char}
    (ha : ∀ c ∈ a, p c = true) (hb : ∀ c, b.head? = some c → p c = false) :
    (a ++ b).takeWhile p = a ∧ (a ++ b).dropWhile p = b := by
  induction a with
  | nil =>
    simp only [List.nil_append]
    cases b with
    | nil => exact ⟨rfl, rfl⟩
    | cons c bs =>
      have hc : p c = false := hb c rfl
      simp [List.takeWhile_cons, List.dropWhile_cons, hc]
  | cons c cs ih =>
    have hc : p c = true := ha c (List.mem_cons_self c cs)
    have ih' := ih (fun x hx => ha x (List.mem_cons_of_mem c hx))
    simp [List.takeWhile_cons, List.dropWhile_cons, hc, ih'.1, ih'.2]

theorem spanWhile_append_left {p : Char → Bool} {a : List Char} (b : List Char)
    (ha : ∀ c ∈ a, p c = true) :
    (a ++ b).takeWhile p = a ++ b.takeWhile p ∧ (a ++ b).dropWhile p = b.dropWhile p := by
  induction a with
  | nil => simp
  | cons c cs ih =>
    have hc : p c = true := ha c (List.mem_cons_self c cs)
    have ih' := ih (fun x hx => ha x (List.mem_cons_of_mem c hx))
    simp [List.takeWhile_cons, List.dropWhile_cons, hc, ih'.1, ih'.2]

/-- Core correctness of `parseRaw`: on an input that starts with a well-formed
identifier (5 digits, optional whitespace, letters, optional whitespace,
digits) followed by an arbitrary remainder, the parse succeeds and captures
exactly the commune code, the section letters, and the maximal digit run
(the parcel digits together with any further digits at the start of the
remainder). -/
theorem parseRaw_append {d5 w1 L w2 P suffE : List Char}
    (hd5 : d5.length = 5) (hd : ∀ c ∈ d5, c.isDigit = true)
    (hw1 : ∀ c ∈ w1, c.isWhitespace = true)
    (hL : L ≠ []) (hLu : ∀ c ∈ L, c.isUpper = true)
    (hw2 : ∀ c ∈ w2, c.isWhitespace = true)
    (hP : P ≠ []) (hPd : ∀ c ∈ P, c.isDigit = true) :
    parseRaw (d5 ++ (w1 ++ (L ++ (w2 ++ (P ++ suffE))))) =
      some (d5, L, P ++ suffE.takeWhile Char.isDigit, suffE.dropWhile Char.isDigit) := by
  have hTake : (d5 ++ (w1 ++ (L ++ (w2 ++ (P ++ suffE))))).take 5 = d5 :=
    List.take_left' hd5
  have hDrop : (d5 ++ (w1 ++ (L ++ (w2 ++ (P ++ suffE))))).drop 5 = w1 ++ (L ++ (w2 ++ (P ++ suffE))) :=
    List.drop_left' hd5
  -- span of the first whitespace run: stops at the first section letter
  have hHeadL : ∀ c, (L ++ (w2 ++ (P ++ suffE))).head? = some c → c.isWhitespace = false := by
    intro c hc
    cases L with
    | nil => exact absurd rfl hL
    | cons l ls =>
      simp only [List.cons_append, List.head?_cons, Option.some.injEq] at hc
      exact hc ▸ isUpper_not_ws (hLu l (List.mem_cons_self l ls))
  have hW1 := takeWhile_dropWhile_append hw1 hHeadL
  -- span of the section letters: stops at whitespace or at the parcel digits
  have hHeadAfterL : ∀ c, (w2 ++ (P ++ suffE)).head? = some c → c.isUpper = false := by
    intro c hc
    cases w2 with
    | nil =>
      cases P with
      | nil => exact absurd rfl hP
      | cons q qs =>
        simp only [List.nil_append, List.cons_append, List.head?_cons, Option.some.injEq] at hc
        exact hc ▸ isDigit_not_upper (hPd q (List.mem_cons_self q qs))
    | cons x xs =>
      simp only [List.cons_append, List.head?_cons, Option.some.injEq] at hc
      exact hc ▸ ws_not_upper (hw2 x (List.mem_cons_self x xs))
  have hSec := takeWhile_dropWhile_append hLu hHeadAfterL
  -- span of the second whitespace run: stops at the first parcel digit
  have hHeadP : ∀ c, (P ++ suffE).head? = some c → c.isWhitespace = false := by
    intro c hc
    cases P with
    | nil => exact absurd rfl hP
    | cons q qs =>
      simp only [List.cons_append, List.head?_cons, Option.some.injEq] at hc
      exact hc ▸ isDigit_not_ws (hPd q (List.mem_cons_self q qs))
  have hW2 := takeWhile_dropWhile_append hw2 hHeadP
  -- span of the parcel digits: extends into any further digits of the remainder
  have hPar := spanWhile_append_left (p := Char.isDigit) suffE hPd
  simp only [parseRaw, hTake, hDrop]
  rw [if_pos ⟨hd5, hd⟩, hW1.2, hSec.1, hSec.2, hW2.2, hPar.1, hPar.2, if_neg hL,
    if_neg (by simp [hP] : ¬ P ++ suffE.takeWhile Char.isDigit = [])]

/-! ### Shape predicates for raw identifiers -/

/-- Witnessed decomposition of `s` as `<5 digits><ws*><letters><ws*><digits>`
followed by the remainder `suffE`. -/
def IdShapeAt (s : String) (d5 w1 L w2 P suffE : List Char) : Prop :=
  s.data = d5 ++ (w1 ++ (L ++ (w2 ++ (P ++ suffE)))) ∧
  d5.length = 5 ∧ (∀ c ∈ d5, c.isDigit = true) ∧
  (∀ c ∈ w1, c.isWhitespace = true) ∧
  L ≠ [] ∧ (∀ c ∈ L, c.isUpper = true) ∧
  (∀ c ∈ w2, c.isWhitespace = true) ∧
  P ≠ [] ∧ (∀ c ∈ P, c.isDigit = true)

/-- Some initial segment of `s` has the identifier shape (what `re.match`
actually tests). -/
def HasIdShapeStart (s : String) : Prop :=
  ∃ d5 w1 L w2 P suffE, IdShapeAt s d5 w1 L w2 P suffE

/-- The whole of `s` has the identifier shape (what the spec calls
well-formed). -/
def HasIdShapeFull (s : String) : Prop :=
  ∃ d5 w1 L w2 P, IdShapeAt s d5 w1 L w2 P []

/-- A successful parse yields a shape decomposition of the input. -/
theorem shape_of_parse {s : String} {d5 sec par rest : List Char}
    (h : parseRaw s.data = some (d5, sec, par, rest)) : HasIdShapeStart s := by
  simp only [parseRaw] at h
  split at h
  case isFalse => exact absurd h (by simp)
  case isTrue hcond =>
    split at h
    case isTrue => exact absurd h (by simp)
    case isFalse hsec =>
      split at h
      case isTrue => exact absurd h (by simp)
      case isFalse hpar =>
        simp only [Option.some.injEq, Prod.mk.injEq] at h
        obtain ⟨h1, h2, h3, h4⟩ := h
        refine ⟨s.data.take 5,
          (s.data.drop 5).takeWhile Char.isWhitespace,
          ((s.data.drop 5).dropWhile Char.isWhitespace).takeWhile Char.isUpper,
          ((((s.data.drop 5).dropWhile Char.isWhitespace).dropWhile Char.isUpper).takeWhile Char.isWhitespace),
          (((((s.data.drop 5).dropWhile Char.isWhitespace).dropWhile Char.isUpper).dropWhile Char.isWhitespace).takeWhile Char.isDigit),
          (((((s.data.drop 5).dropWhile Char.isWhitespace).dropWhile Char.isUpper).dropWhile Char.isWhitespace).dropWhile Char.isDigit),
          ?_, hcond.1, hcond.2, ?_, hsec, ?_, ?_, hpar, ?_⟩
        · conv_lhs => rw [← List.take_append_drop 5 s.data]
          rw [List.append_cancel_left_eq]
          conv_lhs => rw [← List.takeWhile_append_dropWhile Char.isWhitespace (s.data.drop 5)]
          rw [List.append_cancel_left_eq]
          conv_lhs => rw [← List.takeWhile_append_dropWhile Char.isUpper
            ((s.data.drop 5).dropWhile Char.isWhitespace)]
          rw [List.append_cancel_left_eq]
          conv_lhs => rw [← List.takeWhile_append_dropWhile Char.isWhitespace
            (((s.data.drop 5).dropWhile Char.isWhitespace).dropWhile Char.isUpper)]
          rw [List.append_cancel_left_eq]
          conv_lhs => rw [← List.takeWhile_append_dropWhile Char.isDigit
            ((((s.data.drop 5).dropWhile Char.isWhitespace).dropWhile Char.isUpper).dropWhile Char.isWhitespace)]
        · exact fun c hc => by
            have := List.all_takeWhile (p := Char.isWhitespace) (l := s.data.drop 5)
            exact (List.all_eq_true.mp this) c hc
        · exact fun c hc => by
            have := List.all_takeWhile (p := Char.isUpper)
              (l := (s.data.drop 5).dropWhile Char.isWhitespace)
            exact (List.all_eq_true.mp this) c hc
        · exact fun c hc => by
            have := List.all_takeWhile (p := Char.isWhitespace)
              (l := ((s.data.drop 5).dropWhile Char.isWhitespace).dropWhile Char.isUpper)
            exact (List.all_eq_true.mp this) c hc
        · exact fun c hc => by
            have := List.all_takeWhile (p := Char.isDigit)
              (l := (((s.data.drop 5).dropWhile Char.isWhitespace).dropWhile Char.isUpper).dropWhile Char.isWhitespace)
            exact (List.all_eq_true.mp this) c hc

/-- A shape decomposition of the input makes the parse succeed. -/
theorem parse_isSome_of_shape {s : String} (h : HasIdShapeStart s) :
    (parseRaw s.data).isSome = true := by
  obtain ⟨d5, w1, L, w2, P, suffE, heq, hd5, hd, hw1, hL, hLu, hw2, hP, hPdig⟩ := h
  rw [heq, parseRaw_append hd5 hd hw1 hL hLu hw2 hP hPdig]
  rfl

/-! ### Claim C1 -/

/-- C1: for every well-formed raw identifier (5 digits, optional whitespace,
one or more uppercase letters, optional whitespace, one or more digits),
`format_id_csv_column` returns the commune code, then `"0000"` for a
single-letter section or `"000"` for a longer one, then the section, then
the parcel number zero-padded to width 4; `"12345 A 7"` gives
`"123450000A0007"` and `"12345AB7"` gives `"12345000AB0007"`, and parcel
numbers of 5 or more digits are not truncated (the result exceeds 14
characters). -/
theorem C1_format_wellformed :
    (∀ d5 w1 L w2 P : List Char,
      d5.length = 5 → (∀ c ∈ d5, c.isDigit = true) →
      (∀ c ∈ w1, c.isWhitespace = true) →
      L ≠ [] → (∀ c ∈ L, c.isUpper = true) →
      (∀ c ∈ w2, c.isWhitespace = true) →
      P ≠ [] → (∀ c ∈ P, c.isDigit = true) →
      format_id_csv_column ⟨d5 ++ (w1 ++ (L ++ (w2 ++ P)))⟩ =
        .ok ⟨d5 ++ (if L.length = 1 then ['0', '0', '0', '0'] else ['0', '0', '0']) ++
          L ++ zfill4 P⟩ ∧
      (5 ≤ P.length →
        14 < (d5 ++ (if L.length = 1 then ['0', '0', '0', '0'] else ['0', '0', '0']) ++
          L ++ zfill4 P).length))
    ∧ format_id_csv_column "12345 A 7" = .ok "123450000A0007"
    ∧ format_id_csv_column "12345AB7" = .ok "12345000AB0007" := by
  refine ⟨?_, by decide, by decide⟩
  intro d5 w1 L w2 P hd5 hd hw1 hL hLu hw2 hP hPd
  constructor
  · have hparse := @parseRaw_append d5 w1 L w2 P [] hd5 hd hw1 hL hLu hw2 hP hPd
    simp only [List.append_nil, List.takeWhile_nil, List.dropWhile_nil] at hparse
    simp only [format_id_csv_column]
    rw [hparse]
  · intro hlen
    have hL1 : 1 ≤ L.length := by
      cases L with
      | nil => exact absurd rfl hL
      | cons x xs => simp
    by_cases h1 : L.length = 1
    · rw [if_pos h1]
      simp only [zfill4, List.length_append, List.length_replicate, List.length_cons,
        List.length_nil]
      omega
    · rw [if_neg h1]
      simp only [zfill4, List.length_append, List.length_replicate, List.length_cons,
        List.length_nil]
      omega

/-- Closed instance of `C1_format_wellformed`: the general component applied
to the concrete decomposition of `"12345 A 7"`. -/
theorem C1_format_wellformed_witness :
    format_id_csv_column ⟨['1', '2', '3', '4', '5'] ++ ([' '] ++ (['A'] ++ ([' '] ++ ['7'])))⟩ =
      .ok ⟨['1', '2', '3', '4', '5'] ++
        (if (['A'] : List Char).length = 1 then ['0', '0', '0', '0'] else ['0', '0', '0']) ++
        ['A'] ++ zfill4 ['7']⟩ :=
  (C1_format_wellformed.1 ['1', '2', '3', '4', '5'] [' '] ['A'] [' '] ['7']
    (by decide) (by decide) (by decide) (by decide) (by decide) (by decide)
    (by decide) (by decide)).1

/-! ### Claim C2 -/

/-- C2 counterexample: `"12345A7x"` is not of the well-formed shape (the
claim says every such string makes `format_id_csv_column` fail), yet the
function succeeds, because `re.match` only anchors at the start of the
string. -/
theorem C2_counterexample :
    format_id_csv_column "12345A7x" = .ok "123450000A0007" ∧
    ¬ HasIdShapeFull "12345A7x" := by
  constructor
  · decide
  · rintro ⟨d5, w1, L, w2, P, heq, hd5, hd, hw1, hL, hLu, hw2, hP, hPd⟩
    have hparse := @parseRaw_append d5 w1 L w2 P [] hd5 hd hw1 hL hLu hw2 hP hPd
    rw [← heq] at hparse
    have hconc : parseRaw "12345A7x".data =
        some (['1', '2', '3', '4', '5'], ['A'], ['7'], ['x']) := by decide
    have := hparse.symm.trans hconc
    simp only [List.takeWhile_nil, List.dropWhile_nil, Option.some.injEq,
      Prod.mk.injEq] at this
    exact absurd this.2.2.2 (by simp)

/-- C2 (amended): `format_id_csv_column` fails exactly for inputs with no
initial segment of the identifier shape — in particular for the listed
example classes (missing leading 5-digit code, letters before digits,
non-uppercase section, punctuation inside the matched region); an input
whose start is well-formed but which carries trailing content succeeds. -/
theorem C2_amended :
    (∀ s : String, ¬ HasIdShapeStart s →
      format_id_csv_column s = .error ("Invalid ID format: " ++ s)) ∧
    (∀ s : String, HasIdShapeStart s → ∃ r, format_id_csv_column s = .ok r) ∧
    format_id_csv_column "1234 A 7" = .error ("Invalid ID format: " ++ "1234 A 7") ∧
    format_id_csv_column "ABCDE 12 7" = .error ("Invalid ID format: " ++ "ABCDE 12 7") ∧
    format_id_csv_column "12345 a 7" = .error ("Invalid ID format: " ++ "12345 a 7") ∧
    format_id_csv_column "12.45 A 7" = .error ("Invalid ID format: " ++ "12.45 A 7") := by
  refine ⟨?_, ?_, by decide, by decide, by decide, by decide⟩
  · intro s hns
    cases hp : parseRaw s.data with
    | none => simp [format_id_csv_column, hp]
    | some v =>
      obtain ⟨a, b, c, d⟩ := v
      exact absurd (shape_of_parse hp) hns
  · intro s hs
    have := parse_isSome_of_shape hs
    cases hp : parseRaw s.data with
    | none => rw [hp] at this; exact absurd this (by simp)
    | some v =>
      obtain ⟨a, b, c, d⟩ := v
      have hok : format_id_csv_column s =
          .ok ⟨(a ++ if b.length = 1 then ['0', '0', '0', '0'] else ['0', '0', '0']) ++
            b ++ zfill4 c⟩ := by
        simp only [format_id_csv_column, hp]
      exact ⟨_, hok⟩

/-- Closed instance of `C2_amended`: a malformed input is rejected with the
raw value in the message, and a well-formed input is accepted. -/
theorem C2_amended_witness :
    format_id_csv_column "1234 A 7" = .error ("Invalid ID format: " ++ "1234 A 7") ∧
    (∃ r, format_id_csv_column "12345 A 7" = .ok r) := by
  constructor
  · refine C2_amended.1 "1234 A 7" ?_
    intro hshape
    have := parse_isSome_of_shape hshape
    exact absurd this (by decide)
  · refine C2_amended.2.1 "12345 A 7"
      ⟨['1', '2', '3', '4', '5'], [' '], ['A'], [' '], ['7'], [],
        by unfold IdShapeAt; decide⟩

/-! ### CSV grouping (src/csv_handler.py, process_csv) -/

/-- One data row of the input CSV, restricted to the two columns the code
reads: the configured identifier column and the fixed owner-name column
`Nom complet du proprietaire [BG]`. -/
structure CsvRow where
  idValue : String
  ownersValue : String
deriving DecidableEq

/-- Boolean success test for the normalizer result. -/
def isOkB : Except String String → Bool
  | .ok _ => true
  | .error _ => false

/-- Python `defaultdict(list)` update
`owners_by_parcel[k].extend(os)`: extend the list at an existing key in
place, or append a fresh key at the end of the insertion order. -/
def addOwners (m : List (String × List String)) (k : String) (os : List String) :
    List (String × List String) :=
  match m with
  | [] => [(k, os)]
  | (k', v) :: rest =>
      if k' = k then (k', v ++ os) :: rest else (k', v) :: addOwners rest k os

/-- Observable outcome of one `process_csv` run: the `logging.error` messages
emitted, the mapping passed to `export_to_csv` (only on full success), and
the message chain of the raised exception (the caught `ValueError` is the
`__context__` of the re-raised generic one). -/
structure CsvRun where
  log : List String
  exported : Option (List (String × List String))
  errorChain : Option (List String)
deriving DecidableEq

/-- Row loop of `process_csv` (src/csv_handler.py): normalize the identifier
of each row (the first failure logs, aborts, and re-raises), split the
owner column on `", "`, and extend the per-parcel owner list; after all rows
succeed, export the grouped mapping. -/
def processCsvGo : List CsvRow → List (String × List String) → CsvRun
  | [], acc => { log := [], exported := some acc, errorChain := none }
  | r :: rs, acc =>
    match format_id_csv_column r.idValue with
    | .error e =>
        { log := ["Id column value '" ++ r.idValue ++ "' does not match the expected format.",
                  "Failed to process the CSV file: " ++ e],
          exported := none,
          errorChain := some [e, invalidIdMsg] }
    | .ok fid => processCsvGo rs (addOwners acc fid (r.ownersValue.splitOn ", "))

/-- Embedding of `process_csv` (src/csv_handler.py). -/
def process_csv (rows : List CsvRow) : CsvRun := processCsvGo rows []

/-- Lookup in the grouped mapping, defaulting to the empty list. -/
def getGroupD (m : List (String × List String)) (k : String) : List String :=
  match m with
  | [] => []
  | (k', v) :: rest => if k' = k then v else getGroupD rest k

/-- Owner list the spec predicts for key `k`: concatenation, in row order, of
the split owner column of every row normalizing to `k`. -/
def groupSpec (rows : List CsvRow) (k : String) : List String :=
  ((rows.filter (fun r => decide (format_id_csv_column r.idValue = .ok k))).map
    (fun r => r.ownersValue.splitOn ", ")).flatten

theorem getGroupD_addOwners (m : List (String × List String)) (k : String)
    (os : List String) (q : String) :
    getGroupD (addOwners m k os) q =
      if q = k then getGroupD m q ++ os else getGroupD m q := by
  induction m with
  | nil =>
    by_cases h : q = k
    · subst h
      simp [addOwners, getGroupD]
    · have h' : ¬ k = q := fun hh => h hh.symm
      simp [addOwners, getGroupD, h, h']
  | cons p rest ih =>
    obtain ⟨k₀, v₀⟩ := p
    by_cases h0 : k₀ = k
    · subst h0
      by_cases h1 : k₀ = q
      · subst h1
        simp [addOwners, getGroupD]
      · have h1' : ¬ q = k₀ := fun hh => h1 hh.symm
        simp [addOwners, getGroupD, h1, h1']
    · by_cases h1 : k₀ = q
      · have hq : ¬ q = k := fun hh => h0 (h1.trans hh)
        simp [addOwners, getGroupD, h0, h1, hq]
      · simp [addOwners, getGroupD, h0, h1, ih]

theorem mem_keys_addOwners (m : List (String × List String)) (k : String)
    (os : List String) (q : String) :
    q ∈ (addOwners m k os).map Prod.fst ↔ q ∈ m.map Prod.fst ∨ q = k := by
  induction m with
  | nil => simp [addOwners]
  | cons p rest ih =>
    obtain ⟨k₀, v₀⟩ := p
    by_cases h0 : k₀ = k
    · subst h0
      rw [show addOwners ((k₀, v₀) :: rest) k₀ os = (k₀, v₀ ++ os) :: rest from by
        simp [addOwners]]
      simp only [List.map_cons, List.mem_cons]
      tauto
    · rw [show addOwners ((k₀, v₀) :: rest) k os = (k₀, v₀) :: addOwners rest k os from by
        simp [addOwners, h0]]
      simp only [List.map_cons, List.mem_cons, ih]
      tauto

theorem format_error_of_not_ok {s : String}
    (h : isOkB (format_id_csv_column s) = false) :
    format_id_csv_column s = .error ("Invalid ID format: " ++ s) := by
  cases hp : parseRaw s.data with
  | none => simp [format_id_csv_column, hp]
  | some v =>
    obtain ⟨a, b, c, d⟩ := v
    have : isOkB (format_id_csv_column s) = true := by
      simp [format_id_csv_column, hp, isOkB]
    rw [this] at h
    exact absurd h (by simp)

/-- Invariant of the row loop on an all-well-formed tail. -/
theorem processCsvGo_ok (rows : List CsvRow) :
    ∀ acc : List (String × List String),
    (∀ r ∈ rows, isOkB (format_id_csv_column r.idValue) = true) →
    ∃ m, processCsvGo rows acc = { log := [], exported := some m, errorChain := none } ∧
      (∀ k, getGroupD m k = getGroupD acc k ++ groupSpec rows k) ∧
      (∀ k, k ∈ m.map Prod.fst ↔
        k ∈ acc.map Prod.fst ∨ ∃ r ∈ rows, format_id_csv_column r.idValue = .ok k) := by
  induction rows with
  | nil =>
    intro acc _
    exact ⟨acc, rfl, fun k => by simp [groupSpec], fun k => by simp⟩
  | cons r rs ih =>
    intro acc hok
    have hr := hok r (List.mem_cons_self r rs)
    obtain ⟨v, hv⟩ : ∃ v, format_id_csv_column r.idValue = .ok v := by
      cases hfmt : format_id_csv_column r.idValue with
      | ok v => exact ⟨v, rfl⟩
      | error e => rw [hfmt] at hr; exact absurd hr (by simp [isOkB])
    obtain ⟨m, hm, hval, hkeys⟩ :=
      ih (addOwners acc v (r.ownersValue.splitOn ", "))
        (fun x hx => hok x (List.mem_cons_of_mem r hx))
    refine ⟨m, ?_, ?_, ?_⟩
    · simp only [processCsvGo, hv]
      exact hm
    · intro k
      rw [hval k, getGroupD_addOwners]
      by_cases hk : k = v
      · subst hk
        have : groupSpec (r :: rs) k = r.ownersValue.splitOn ", " ++ groupSpec rs k := by
          simp [groupSpec, List.filter_cons, hv]
        rw [this, if_pos rfl, List.append_assoc]
      · have hne : ¬ format_id_csv_column r.idValue = .ok k := by
          rw [hv]
          intro hcon
          exact hk (by injection hcon with h; exact h.symm) 
        have : groupSpec (r :: rs) k = groupSpec rs k := by
          simp [groupSpec, List.filter_cons, hne]
        rw [this, if_neg hk]
    · intro k
      rw [hkeys k, mem_keys_addOwners]
      constructor
      · rintro ((hmem | hkv) | ⟨x, hx, hfx⟩)
        · exact Or.inl hmem
        · exact Or.inr ⟨r, List.mem_cons_self r rs, by rw [hv, hkv]⟩
        · exact Or.inr ⟨x, List.mem_cons_of_mem r hx, hfx⟩
      · rintro (hmem | ⟨x, hx, hfx⟩)
        · exact Or.inl (Or.inl hmem)
        · rcases List.mem_cons.mp hx with hxr | hxrs
          · subst hxr
            rw [hv] at hfx
            exact Or.inl (Or.inr (by injection hfx with h; exact h.symm))
          · exact Or.inr ⟨x, hxrs, hfx⟩

/-! ### Claim C4 -/

/-- C4: for an input CSV whose identifiers are all well-formed, the grouping
step succeeds and maps each normalized identifier to the concatenation, in
row order, of the owner column of every row with that identifier split on
`", "` (duplicates concatenated, not deduplicated); the keys are exactly
the normalized identifiers of the rows. -/
theorem C4_grouping (rows : List CsvRow)
    (h : ∀ r ∈ rows, isOkB (format_id_csv_column r.idValue) = true) :
    ∃ m, (process_csv rows).exported = some m ∧ (process_csv rows).errorChain = none ∧
      (∀ k, getGroupD m k = groupSpec rows k) ∧
      (∀ k, k ∈ m.map Prod.fst ↔ ∃ r ∈ rows, format_id_csv_column r.idValue = .ok k) := by
  obtain ⟨m, hm, hval, hkeys⟩ := processCsvGo_ok rows [] h
  refine ⟨m, ?_, ?_, ?_, ?_⟩
  · rw [process_csv, hm]
  · rw [process_csv, hm]
  · intro k
    rw [hval k]
    simp [getGroupD]
  · intro k
    rw [hkeys k]
    simp

/-- Closed instance of `C4_grouping`: two rows normalize to the same parcel
id; the duplicate owner name `"Alice"` is kept twice. -/
theorem C4_grouping_witness :
    ∃ m, (process_csv [⟨"12345 A 7", "Alice, Bob"⟩, ⟨"12345A7", "Alice"⟩]).exported = some m ∧
      (process_csv [⟨"12345 A 7", "Alice, Bob"⟩, ⟨"12345A7", "Alice"⟩]).errorChain = none ∧
      getGroupD m "123450000A0007" =
        groupSpec [⟨"12345 A 7", "Alice, Bob"⟩, ⟨"12345A7", "Alice"⟩] "123450000A0007" := by
  obtain ⟨m, h1, h2, h3, h4⟩ :=
    C4_grouping [⟨"12345 A 7", "Alice, Bob"⟩, ⟨"12345A7", "Alice"⟩] (by decide)
  exact ⟨m, h1, h2, h3 "123450000A0007"⟩

/-! ### Claim C5 -/

/-- Abort behaviour of the row loop at the first malformed identifier. -/
theorem processCsvGo_error (good : List CsvRow) (bad : CsvRow) (rest : List CsvRow) :
    ∀ acc : List (String × List String),
    (∀ r ∈ good, isOkB (format_id_csv_column r.idValue) = true) →
    isOkB (format_id_csv_column bad.idValue) = false →
    processCsvGo (good ++ bad :: rest) acc =
      { log := ["Id column value '" ++ bad.idValue ++ "' does not match the expected format.",
                "Failed to process the CSV file: " ++ ("Invalid ID format: " ++ bad.idValue)],
        exported := none,
        errorChain := some ["Invalid ID format: " ++ bad.idValue, invalidIdMsg] } := by
  induction good with
  | nil =>
    intro acc _ hbad
    have herr := format_error_of_not_ok hbad
    simp only [List.nil_append, processCsvGo, herr]
  | cons r rs ih =>
    intro acc hok hbad
    have hr := hok r (List.mem_cons_self r rs)
    obtain ⟨v, hv⟩ : ∃ v, format_id_csv_column r.idValue = .ok v := by
      cases hfmt : format_id_csv_column r.idValue with
      | ok v => exact ⟨v, rfl⟩
      | error e => rw [hfmt] at hr; exact absurd hr (by simp [isOkB])
    simp only [List.cons_append, processCsvGo, hv]
    exact ih _ (fun x hx => hok x (List.mem_cons_of_mem r hx)) hbad

/-- C5: if some row of the input CSV has a malformed identifier,
`process_csv` stops at the first such row and raises: the logged error and
the exception context both carry the offending raw identifier value, the
re-raised message is the generic one, and no grouped output CSV is exported. -/
theorem C5_abort_on_malformed (good : List CsvRow) (bad : CsvRow) (rest : List CsvRow)
    (hgood : ∀ r ∈ good, isOkB (format_id_csv_column r.idValue) = true)
    (hbad : isOkB (format_id_csv_column bad.idValue) = false) :
    process_csv (good ++ bad :: rest) =
      { log := ["Id column value '" ++ bad.idValue ++ "' does not match the expected format.",
                "Failed to process the CSV file: " ++ ("Invalid ID format: " ++ bad.idValue)],
        exported := none,
        errorChain := some ["Invalid ID format: " ++ bad.idValue, invalidIdMsg] } :=
  processCsvGo_error good bad rest [] hgood hbad

/-- Closed instance of `C5_abort_on_malformed`: a single malformed row
aborts the run with the raw value in the log and in the exception context,
and nothing is exported. -/
theorem C5_abort_on_malformed_witness :
    process_csv [⟨"12345 A 7", "Alice"⟩, ⟨"12AB", "Bob"⟩, ⟨"12345 B 9", "Carol"⟩] =
      { log := ["Id column value '" ++ "12AB" ++ "' does not match the expected format.",
                "Failed to process the CSV file: " ++ ("Invalid ID format: " ++ "12AB")],
        exported := none,
        errorChain := some ["Invalid ID format: " ++ "12AB", invalidIdMsg] } :=
  C5_abort_on_malformed [⟨"12345 A 7", "Alice"⟩] ⟨"12AB", "Bob"⟩ [⟨"12345 B 9", "Carol"⟩]
    (by decide) (by decide)

/-! ### Ordered-dictionary primitives -/

/-- Python `d[k] = v` on an insertion-ordered dictionary: replace the value
at an existing key in place, or append a fresh key at the end. -/
def setEntry {α : Type} : List (String × α) → String → α → List (String × α)
  | [], k, v => [(k, v)]
  | (k₀, v₀) :: rest, k, v =>
      if k₀ = k then (k₀, v) :: rest else (k₀, v₀) :: setEntry rest k v

/-- Python `d.get(k)`: value at the first matching key, if any. -/
def getEntry {α : Type} : List (String × α) → String → Option α
  | [], _ => none
  | (k₀, v₀) :: rest, k => if k₀ = k then some v₀ else getEntry rest k

/-- Key list of a dictionary, in insertion order. -/
def keysOf {α : Type} (l : List (String × α)) : List String := l.map Prod.fst

/-! ### CSV export and re-import (src/csv_handler.py, export_to_csv / read_csv) -/

/-- Embedding of `export_to_csv` (src/csv_handler.py) at the record level:
the produced file is its list of rows, a header followed by one
`[parcel_id, ", ".join(owners)]` row per mapping entry, in insertion
order.  (The `csv` module quotes fields that embed the separator, so the
row/field structure is preserved exactly regardless of the configured
separator.) -/
def export_to_csv (m : List (String × List String)) : List (List String) :=
  ["Parcel ID", "Owners"] :: m.map (fun kv => [kv.1, String.intercalate ", " kv.2])

/-- Row loop of `read_csv`: each data row is unpacked as
`parcel_id, owners = row` (an error if the row does not have exactly two
fields) and assigned into the dictionary. -/
def readCsvRows : List (List String) → List (String × List String) →
    Except String (List (String × List String))
  | [], acc => .ok acc
  | row :: rest, acc =>
    match row with
    | [pid, owners] => readCsvRows rest (setEntry acc pid (owners.splitOn ", "))
    | _ => .error "ValueError: cannot unpack row"

/-- Embedding of `read_csv` (src/csv_handler.py): `next(reader)` skips the
header (raising `StopIteration` on an empty file), then each remaining row
is split into parcel id and owners, the owners cell split on `", "`. -/
def read_csv (rows : List (List String)) : Except String (List (String × List String)) :=
  match rows with
  | [] => .error "StopIteration"
  | _header :: body => readCsvRows body []

theorem setEntry_of_fresh {α : Type} (l : List (String × α)) (k : String) (v : α)
    (h : k ∉ keysOf l) : setEntry l k v = l ++ [(k, v)] := by
  induction l with
  | nil => rfl
  | cons p rest ih =>
    obtain ⟨k₀, v₀⟩ := p
    have hk : ¬ k₀ = k := by
      intro hh
      exact h (by simp [keysOf, hh])
    simp only [setEntry, if_neg hk, List.cons_append, List.cons.injEq, true_and]
    exact ih (fun hm => h (by simp [keysOf] at hm ⊢; exact Or.inr hm))

/-- Reading back exported rows accumulates exactly the exported entries when
the keys are distinct. -/
theorem readCsvRows_export (m : List (String × List String)) :
    ∀ acc : List (String × List String),
    (keysOf m).Nodup →
    (∀ k ∈ keysOf m, k ∉ keysOf acc) →
    readCsvRows (m.map (fun kv => [kv.1, String.intercalate ", " kv.2])) acc =
      .ok (acc ++ m.map (fun kv => (kv.1, (String.intercalate ", " kv.2).splitOn ", "))) := by
  induction m with
  | nil =>
    intro acc _ _
    simp [readCsvRows]
  | cons p rest ih =>
    intro acc hnd hfresh
    obtain ⟨k, os⟩ := p
    have hk : k ∉ keysOf acc := hfresh k (by simp [keysOf])
    simp only [List.map_cons, readCsvRows, setEntry_of_fresh acc k _ hk]
    rw [ih (acc ++ [(k, (String.intercalate ", " os).splitOn ", ")])
      (by simp [keysOf] at hnd ⊢; exact hnd.2)
      ?_]
    · simp
    · intro k' hk'
      have hk'acc : k' ∉ keysOf acc := hfresh k' (by simp [keysOf] at hk' ⊢; exact Or.inr hk')
      have hk'ne : k' ≠ k := by
        simp only [keysOf, List.map_cons, List.nodup_cons] at hnd
        intro hh
        exact hnd.1 (hh ▸ hk')
      have hkeys : keysOf (acc ++ [(k, (String.intercalate ", " os).splitOn ", ")]) =
          keysOf acc ++ [k] := by simp [keysOf]
      rw [hkeys]
      intro hin
      rcases List.mem_append.mp hin with hmem | hmem
      · exact hk'acc hmem
      · exact hk'ne (List.mem_singleton.mp hmem)

/-! ### Claim C6 -/

/-- C6: exporting an OwnersByParcel mapping with `export_to_csv` and
re-reading the file with `read_csv` yields an equivalent mapping: the same
parcel-id keys (in the same order), each mapped to the owner list obtained
by splitting the joined owners cell on `", "`. -/
theorem C6_roundtrip (m : List (String × List String)) (hnd : (keysOf m).Nodup) :
    read_csv (export_to_csv m) =
      .ok (m.map (fun kv => (kv.1, (String.intercalate ", " kv.2).splitOn ", "))) ∧
    keysOf (m.map (fun kv => (kv.1, (String.intercalate ", " kv.2).splitOn ", "))) = keysOf m := by
  constructor
  · rw [export_to_csv, read_csv]
    rw [readCsvRows_export m [] hnd (by simp [keysOf])]
    simp
  · simp [keysOf]

/-- Closed instance of `C6_roundtrip` at a concrete mapping with a
multi-owner parcel. -/
theorem C6_roundtrip_witness :
    read_csv (export_to_csv [("123450000A0007", ["Alice", "Bob"]), ("12345000AB0001", ["Carol"])]) =
      .ok ([("123450000A0007", ["Alice", "Bob"]), ("12345000AB0001", ["Carol"])].map
        (fun kv => (kv.1, (String.intercalate ", " kv.2).splitOn ", "))) :=
  (C6_roundtrip [("123450000A0007", ["Alice", "Bob"]), ("12345000AB0001", ["Carol"])]
    (by decide)).1

/-! ### GeoJSON merge (src/geojson_handler.py, process_geojson) -/

/-- Feature properties bag.  Only the properties matter to the merge; values
are modelled as strings (the id and every value the merge writes are
strings). -/
abbrev Props := List (String × String)

/-- The f-string `f"\x7bindividual_prop_base_name\x7d \x7bi\x7d"`. -/
def indivName (base : String) (i : Nat) : String := base ++ " " ++ toString i

/-- The `enumerate(..., start=1)` loop writing one property per owner. -/
def setIndiv (base : String) : Nat → List String → Props → Props
  | _, [], props => props
  | i, o :: os, props => setIndiv base (i + 1) os (setEntry props (indivName base i) o)

/-- Property updates applied to a feature whose id was found in
`owners_by_parcel`: set the aggregate property to the joined owners, then,
if the individual base name is truthy (non-empty), one property per owner. -/
def updateMatched (pn base : String) (os : List String) (props : Props) : Props :=
  let p1 := setEntry props pn (String.intercalate ", " os)
  if base = "" then p1 else setIndiv base 1 os p1

/-- Dictionary lookup of `feature['properties'].get('id', None)` in
`owners_by_parcel` (a missing id is `None`, which is never a key). -/
def lookupOw (ow : List (String × List String)) : Option String → Option (List String)
  | none => none
  | some k => getEntry ow k

/-- Per-feature action of the merge loop. -/
def updateFeature (ow : List (String × List String)) (pn base : String) (props : Props) :
    Props :=
  match lookupOw ow (getEntry props "id") with
  | some os => updateMatched pn base os props
  | none => props

/-- Merge loop over the features: updated features, processed counter, and
JSON-side inconsistency list (ids of unmatched features, in feature order;
a missing id is recorded as `none`). -/
def mergeLoop (ow : List (String × List String)) (pn base : String) :
    List Props → List Props × Nat × List (Option String)
  | [] => ([], 0, [])
  | props :: rest =>
    let r := mergeLoop ow pn base rest
    match lookupOw ow (getEntry props "id") with
    | some os => (updateMatched pn base os props :: r.1, r.2.1 + 1, r.2.2)
    | none => (props :: r.1, r.2.1, getEntry props "id" :: r.2.2)

/-- Reverse check: keys of `owners_by_parcel` matching no feature id in the
(already updated) feature list. -/
def csvIncOf (ow : List (String × List String)) (feats : List Props) : List String :=
  (keysOf ow).filter (fun k => decide (¬ some k ∈ feats.map (fun p => getEntry p "id")))

/-- In-memory outcome of the merge part of `process_geojson`. -/
structure GeoMerge where
  features : List Props
  processedCount : Nat
  jsonInc : List (Option String)
  csvInc : List String
deriving DecidableEq

/-- Merge part of `process_geojson` (src/geojson_handler.py, feature loop
plus reverse check). -/
def process_geojson_core (feats : List Props) (ow : List (String × List String))
    (pn base : String) : GeoMerge :=
  let r := mergeLoop ow pn base feats
  { features := r.1, processedCount := r.2.1, jsonInc := r.2.2, csvInc := csvIncOf ow r.1 }

theorem mergeLoop_eq (ow : List (String × List String)) (pn base : String)
    (feats : List Props) :
    mergeLoop ow pn base feats =
      (feats.map (updateFeature ow pn base),
       (feats.filter (fun p => (lookupOw ow (getEntry p "id")).isSome)).length,
       (feats.filter (fun p => !(lookupOw ow (getEntry p "id")).isSome)).map
         (fun p => getEntry p "id")) := by
  induction feats with
  | nil => rfl
  | cons props rest ih =>
    cases hl : lookupOw ow (getEntry props "id") with
    | none =>
      simp [mergeLoop, ih, hl, updateFeature, List.filter_cons]
    | some os =>
      simp [mergeLoop, ih, hl, updateFeature, List.filter_cons]

/-! ### Sequences of dictionary writes -/

/-- Apply a sequence of `setEntry` writes in order. -/
def applyAll {α : Type} (l : List (String × α)) (seq : List (String × α)) :
    List (String × α) :=
  seq.foldl (fun acc kv => setEntry acc kv.1 kv.2) l

/-- Value of the last write to a key in a sequence, if any. -/
def findLast {α : Type} : List (String × α) → String → Option α
  | [], _ => none
  | (k₀, v₀) :: rest, k =>
    match findLast rest k with
    | some v => some v
    | none => if k₀ = k then some v₀ else none

theorem getEntry_setEntry {α : Type} (l : List (String × α)) (k : String) (v : α)
    (q : String) :
    getEntry (setEntry l k v) q = if k = q then some v else getEntry l q := by
  induction l with
  | nil =>
    by_cases h : k = q <;> simp [setEntry, getEntry, h]
  | cons p rest ih =>
    obtain ⟨k₀, v₀⟩ := p
    by_cases h0 : k₀ = k
    · subst h0
      by_cases h1 : k₀ = q <;> simp [setEntry, getEntry, h1]
    · by_cases h1 : k₀ = q
      · have hk : ¬ k = q := fun hh => h0 (h1.trans hh.symm)
        have hk' : ¬ q = k := fun hh => hk hh.symm
        simp [setEntry, getEntry, h0, h1, hk, hk']
      · simp [setEntry, getEntry, h0, h1, ih]

theorem mem_keysOf_setEntry {α : Type} (l : List (String × α)) (k : String) (v : α)
    (q : String) :
    q ∈ keysOf (setEntry l k v) ↔ q ∈ keysOf l ∨ q = k := by
  induction l with
  | nil => simp [setEntry, keysOf]
  | cons p rest ih =>
    obtain ⟨k₀, v₀⟩ := p
    by_cases h0 : k₀ = k
    · subst h0
      rw [show setEntry ((k₀, v₀) :: rest) k₀ v = (k₀, v) :: rest from by simp [setEntry]]
      simp only [keysOf, List.map_cons, List.mem_cons]
      tauto
    · simp only [setEntry, if_neg h0, keysOf, List.map_cons, List.mem_cons] at ih ⊢
      rw [ih]
      tauto

theorem keysOf_setEntry_of_mem {α : Type} (l : List (String × α)) (k : String) (v : α)
    (h : k ∈ keysOf l) : keysOf (setEntry l k v) = keysOf l := by
  induction l with
  | nil => simp [keysOf] at h
  | cons p rest ih =>
    obtain ⟨k₀, v₀⟩ := p
    by_cases h0 : k₀ = k
    · subst h0
      simp [setEntry, keysOf]
    · have hk : k ∈ keysOf rest := by
        simp only [keysOf, List.map_cons, List.mem_cons] at h
        rcases h with h | h
        · exact absurd h.symm h0
        · exact h
      simp only [setEntry, if_neg h0, keysOf, List.map_cons]
      rw [show List.map Prod.fst (setEntry rest k v) = keysOf (setEntry rest k v) from rfl,
        ih hk]
      rfl

theorem nodup_keysOf_setEntry {α : Type} (l : List (String × α)) (k : String) (v : α)
    (h : (keysOf l).Nodup) : (keysOf (setEntry l k v)).Nodup := by
  induction l with
  | nil => simp [setEntry, keysOf]
  | cons p rest ih =>
    obtain ⟨k₀, v₀⟩ := p
    simp only [keysOf, List.map_cons, List.nodup_cons] at h
    by_cases h0 : k₀ = k
    · subst h0
      rw [show setEntry ((k₀, v₀) :: rest) k₀ v = (k₀, v) :: rest from by simp [setEntry]]
      simp only [keysOf, List.map_cons, List.nodup_cons]
      exact h
    · simp only [setEntry, if_neg h0, keysOf, List.map_cons, List.nodup_cons]
      refine ⟨?_, ih h.2⟩
      intro hmem
      rcases (mem_keysOf_setEntry rest k v k₀).mp hmem with hmem | hmem
      · exact h.1 hmem
      · exact h0 hmem

theorem getEntry_applyAll {α : Type} (seq : List (String × α)) :
    ∀ l : List (String × α), ∀ q : String,
    getEntry (applyAll l seq) q =
      match findLast seq q with
      | some v => some v
      | none => getEntry l q := by
  induction seq with
  | nil => intro l q; rfl
  | cons kv rest ih =>
    intro l q
    obtain ⟨k₀, v₀⟩ := kv
    have hstep : applyAll l ((k₀, v₀) :: rest) = applyAll (setEntry l k₀ v₀) rest := rfl
    rw [hstep, ih]
    cases hf : findLast rest q with
    | some v => simp [findLast, hf]
    | none =>
      simp only [findLast, hf]
      rw [getEntry_setEntry]
      by_cases h : k₀ = q
      · simp [h]
      · simp [h]

theorem mem_keysOf_applyAll_left {α : Type} (seq : List (String × α)) :
    ∀ l : List (String × α), ∀ q : String,
    q ∈ keysOf l → q ∈ keysOf (applyAll l seq) := by
  induction seq with
  | nil => intro l q h; exact h
  | cons kv rest ih =>
    intro l q h
    obtain ⟨k₀, v₀⟩ := kv
    exact ih (setEntry l k₀ v₀) q ((mem_keysOf_setEntry l k₀ v₀ q).mpr (Or.inl h))

theorem mem_keysOf_applyAll_seq {α : Type} (seq : List (String × α)) :
    ∀ l : List (String × α), ∀ q : String,
    q ∈ keysOf seq → q ∈ keysOf (applyAll l seq) := by
  induction seq with
  | nil => intro l q h; simp [keysOf] at h
  | cons kv rest ih =>
    intro l q h
    obtain ⟨k₀, v₀⟩ := kv
    simp only [keysOf, List.map_cons, List.mem_cons] at h
    rcases h with h | h
    · exact mem_keysOf_applyAll_left rest (setEntry l k₀ v₀) q
        ((mem_keysOf_setEntry l k₀ v₀ q).mpr (Or.inr h))
    · exact ih (setEntry l k₀ v₀) q h

theorem keysOf_applyAll_of_sub {α : Type} (seq : List (String × α)) :
    ∀ l : List (String × α),
    (∀ k ∈ keysOf seq, k ∈ keysOf l) → keysOf (applyAll l seq) = keysOf l := by
  induction seq with
  | nil => intro l _; rfl
  | cons kv rest ih =>
    intro l hsub
    obtain ⟨k₀, v₀⟩ := kv
    have hk₀ : k₀ ∈ keysOf l := hsub k₀ (by simp [keysOf])
    have hkeys := keysOf_setEntry_of_mem l k₀ v₀ hk₀
    have hrest : ∀ k ∈ keysOf rest, k ∈ keysOf (setEntry l k₀ v₀) := by
      intro k hk
      rw [hkeys]
      exact hsub k (by simp [keysOf]; exact Or.inr (by simpa [keysOf] using hk))
    calc keysOf (applyAll (setEntry l k₀ v₀) rest) = keysOf (setEntry l k₀ v₀) :=
          ih (setEntry l k₀ v₀) hrest
      _ = keysOf l := hkeys

theorem nodup_keysOf_applyAll {α : Type} (seq : List (String × α)) :
    ∀ l : List (String × α),
    (keysOf l).Nodup → (keysOf (applyAll l seq)).Nodup := by
  induction seq with
  | nil => intro l h; exact h
  | cons kv rest ih =>
    intro l h
    obtain ⟨k₀, v₀⟩ := kv
    exact ih (setEntry l k₀ v₀) (nodup_keysOf_setEntry l k₀ v₀ h)

theorem getEntry_eq_none_iff {α : Type} (l : List (String × α)) (q : String) :
    getEntry l q = none ↔ q ∉ keysOf l := by
  induction l with
  | nil => simp [getEntry, keysOf]
  | cons p rest ih =>
    obtain ⟨k₀, v₀⟩ := p
    by_cases h0 : k₀ = q
    · subst h0
      simp [getEntry, keysOf]
    · simp only [getEntry, if_neg h0, keysOf, List.map_cons, List.mem_cons, ih]
      constructor
      · rintro hnone (hq | hq)
        · exact h0 hq.symm
        · exact hnone hq
      · intro hq
        exact fun hmem => hq (Or.inr hmem)

theorem entry_ext {α : Type} (l₁ : List (String × α)) :
    ∀ l₂ : List (String × α),
    keysOf l₁ = keysOf l₂ → (keysOf l₁).Nodup →
    (∀ q, getEntry l₁ q = getEntry l₂ q) → l₁ = l₂ := by
  induction l₁ with
  | nil =>
    intro l₂ hkeys _ _
    cases l₂ with
    | nil => rfl
    | cons p rest => simp [keysOf] at hkeys
  | cons p rest ih =>
    intro l₂ hkeys hnd hget
    obtain ⟨k₀, v₀⟩ := p
    cases l₂ with
    | nil => simp [keysOf] at hkeys
    | cons p₂ rest₂ =>
      obtain ⟨k₂, v₂⟩ := p₂
      simp only [keysOf, List.map_cons, List.cons.injEq] at hkeys
      obtain ⟨hk, hkeys'⟩ := hkeys
      subst hk
      have hv : v₀ = v₂ := by
        have := hget k₀
        simp [getEntry] at this
        exact this
      subst hv
      simp only [keysOf, List.map_cons, List.nodup_cons] at hnd
      refine congrArg _ (ih rest₂ hkeys' hnd.2 ?_)
      intro q
      by_cases hq : q = k₀
      · subst hq
        have h1 : getEntry rest q = none := (getEntry_eq_none_iff rest q).mpr hnd.1
        have h2 : getEntry rest₂ q = none := by
          refine (getEntry_eq_none_iff rest₂ q).mpr ?_
          rw [show keysOf rest₂ = keysOf rest from hkeys'.symm]
          exact hnd.1
        rw [h1, h2]
      · have := hget q
        have hne : ¬ k₀ = q := fun hh => hq hh.symm
        simpa [getEntry, hne] using this

/-- Applying the same write sequence twice is the same as applying it once
(on a duplicate-free dictionary). -/
theorem applyAll_idem {α : Type} (l : List (String × α)) (seq : List (String × α))
    (hnd : (keysOf l).Nodup) :
    applyAll (applyAll l seq) seq = applyAll l seq := by
  have hsub : ∀ k ∈ keysOf seq, k ∈ keysOf (applyAll l seq) :=
    fun k hk => mem_keysOf_applyAll_seq seq l k hk
  refine entry_ext _ _ (keysOf_applyAll_of_sub seq (applyAll l seq) hsub) ?_ ?_
  · rw [keysOf_applyAll_of_sub seq (applyAll l seq) hsub]
    exact nodup_keysOf_applyAll seq l hnd
  · intro q
    rw [getEntry_applyAll, getEntry_applyAll]
    cases hf : findLast seq q with
    | some v => simp
    | none => simp

/-! ### The merge as a write sequence -/

/-- Write sequence of the `enumerate` loop. -/
def indivSeq (base : String) : Nat → List String → List (String × String)
  | _, [] => []
  | i, o :: os => (indivName base i, o) :: indivSeq base (i + 1) os

/-- Full write sequence applied to a matched feature. -/
def matchSeq (pn base : String) (os : List String) : List (String × String) :=
  (pn, String.intercalate ", " os) :: (if base = "" then [] else indivSeq base 1 os)

theorem setIndiv_eq_applyAll (base : String) (os : List String) :
    ∀ i : Nat, ∀ props : Props,
    setIndiv base i os props = applyAll props (indivSeq base i os) := by
  induction os with
  | nil => intro i props; rfl
  | cons o os ih =>
    intro i props
    exact ih (i + 1) (setEntry props (indivName base i) o)

theorem updateMatched_eq_applyAll (pn base : String) (os : List String) (props : Props) :
    updateMatched pn base os props = applyAll props (matchSeq pn base os) := by
  by_cases hb : base = ""
  · simp [updateMatched, matchSeq, hb, applyAll]
  · simp only [updateMatched, matchSeq, if_neg hb]
    exact setIndiv_eq_applyAll base os 1 (setEntry props pn (String.intercalate ", " os))

theorem indivName_ne_id (base : String) (i : Nat) : indivName base i ≠ "id" := by
  intro h
  have hmem : ' ' ∈ (indivName base i).data := by
    have hdata : (indivName base i).data = (base.data ++ [' ']) ++ (toString i).data := rfl
    rw [hdata]
    simp
  rw [h] at hmem
  exact absurd hmem (by decide)

theorem mem_keysOf_indivSeq (base : String) (os : List String) :
    ∀ i : Nat, ∀ q : String, q ∈ keysOf (indivSeq base i os) →
    ∃ j, q = indivName base (i + j) := by
  induction os with
  | nil => intro i q h; simp [indivSeq, keysOf] at h
  | cons o os ih =>
    intro i q h
    simp only [indivSeq, keysOf, List.map_cons, List.mem_cons] at h
    rcases h with h | h
    · exact ⟨0, h⟩
    · obtain ⟨j, hj⟩ := ih (i + 1) q h
      exact ⟨j + 1, by rw [hj]; congr 1; omega⟩

theorem findLast_of_not_mem {α : Type} (seq : List (String × α)) (q : String)
    (h : q ∉ keysOf seq) : findLast seq q = none := by
  induction seq with
  | nil => rfl
  | cons kv rest ih =>
    obtain ⟨k₀, v₀⟩ := kv
    simp only [keysOf, List.map_cons, List.mem_cons] at h
    have h1 : q ∉ keysOf rest := fun hm => h (Or.inr hm)
    have h2 : ¬ k₀ = q := fun hh => h (Or.inl hh.symm)
    simp [findLast, ih h1, h2]

theorem findLast_of_nodup {α : Type} (seq : List (String × α)) (q : String) (v : α)
    (hnd : (keysOf seq).Nodup) (hmem : (q, v) ∈ seq) : findLast seq q = some v := by
  induction seq with
  | nil => simp at hmem
  | cons kv rest ih =>
    obtain ⟨k₀, v₀⟩ := kv
    simp only [keysOf, List.map_cons, List.nodup_cons] at hnd
    rcases List.mem_cons.mp hmem with h | h
    · cases h
      simp [findLast, findLast_of_not_mem rest q hnd.1]
    · have hq : q ∈ keysOf rest := by
        simp only [keysOf, List.mem_map]
        exact ⟨(q, v), h, rfl⟩
      have : findLast rest q = some v := ih hnd.2 h
      simp [findLast, this]

/-- The merge never changes the id property (when the aggregate property is
not itself named `id`; the individual-owner properties always contain a
space and thus cannot be named `id`). -/
theorem getEntry_id_updateFeature (ow : List (String × List String)) (pn base : String)
    (hpn : pn ≠ "id") (props : Props) :
    getEntry (updateFeature ow pn base props) "id" = getEntry props "id" := by
  rw [updateFeature]
  cases hl : lookupOw ow (getEntry props "id") with
  | none => rfl
  | some os =>
    show getEntry (updateMatched pn base os props) "id" = getEntry props "id"
    rw [updateMatched_eq_applyAll, getEntry_applyAll]
    have hid : ("id" : String) ∉ keysOf (matchSeq pn base os) := by
      intro hmem
      simp only [matchSeq, keysOf, List.map_cons, List.mem_cons] at hmem
      rcases hmem with h | h
      · exact hpn h.symm
      · by_cases hb : base = ""
        · rw [if_pos hb] at h
          simp at h
        · rw [if_neg hb] at h
          obtain ⟨j, hj⟩ := mem_keysOf_indivSeq base os 1 "id" h
          exact indivName_ne_id base (1 + j) hj.symm
    rw [findLast_of_not_mem _ _ hid]

theorem getEntry_mem {α : Type} (l : List (String × α)) (q : String) (v : α)
    (h : getEntry l q = some v) : (q, v) ∈ l := by
  induction l with
  | nil => simp [getEntry] at h
  | cons p rest ih =>
    obtain ⟨k₀, v₀⟩ := p
    by_cases h0 : k₀ = q
    · subst h0
      rw [show getEntry ((k₀, v₀) :: rest) k₀ = some v₀ from by simp [getEntry]] at h
      injection h with hv
      subst hv
      exact List.mem_cons_self _ _
    · simp only [getEntry, if_neg h0] at h
      exact List.mem_cons_of_mem _ (ih h)

theorem mem_indivSeq_of_getElem (base : String) (os : List String) :
    ∀ s i : Nat, ∀ o : String, os[i]? = some o →
    (indivName base (s + i), o) ∈ indivSeq base s os := by
  induction os with
  | nil => intro s i o h; simp at h
  | cons o₀ os ih =>
    intro s i o h
    cases i with
    | zero =>
      simp only [List.getElem?_cons_zero, Option.some.injEq] at h
      subst h
      exact List.mem_cons_self _ _
    | succ i =>
      simp only [List.getElem?_cons_succ] at h
      have := ih (s + 1) i o h
      rw [show s + 1 + i = s + (i + 1) from by omega] at this
      exact List.mem_cons_of_mem _ this

theorem filter_length_add {α : Type} (p : α → Bool) (l : List α) :
    (l.filter p).length + (l.filter (fun a => !(p a))).length = l.length := by
  induction l with
  | nil => rfl
  | cons a l ih =>
    cases ha : p a <;> simp [List.filter_cons, ha] <;> omega

/-- Unfolded form of the merge. -/
theorem process_geojson_core_eq (feats : List Props) (ow : List (String × List String))
    (pn base : String) :
    process_geojson_core feats ow pn base =
      { features := feats.map (updateFeature ow pn base),
        processedCount :=
          (feats.filter (fun p => (lookupOw ow (getEntry p "id")).isSome)).length,
        jsonInc := (feats.filter (fun p => !(lookupOw ow (getEntry p "id")).isSome)).map
          (fun p => getEntry p "id"),
        csvInc := csvIncOf ow (feats.map (updateFeature ow pn base)) } := by
  rw [process_geojson_core, mergeLoop_eq]

/-! ### Claim C3 -/

/-- C3: the merge classifies every record exactly: a feature whose id is a
key of OwnersByParcel gets the aggregate property set to the owners joined
with `", "`; a feature whose id is not a key goes to the JSON-side
inconsistency list unchanged; and the CSV-side list holds exactly the keys
matching no feature id — including the concrete A/B/Alice/C/Bob example of
the spec.  (Stated for the merge with the individual-owner expansion
disabled and an aggregate property not named `id`; the expansion is the
subject of C8.) -/
theorem C3_merge_classification (feats : List Props) (ow : List (String × List String))
    (pn : String) (hpn : pn ≠ "id") :
    ((∀ (i : Nat) (props : Props), feats[i]? = some props →
      (∀ os, lookupOw ow (getEntry props "id") = some os →
        ∃ props', (process_geojson_core feats ow pn "").features[i]? = some props' ∧
          getEntry props' pn = some (String.intercalate ", " os)) ∧
      (lookupOw ow (getEntry props "id") = none →
        (process_geojson_core feats ow pn "").features[i]? = some props ∧
        getEntry props "id" ∈ (process_geojson_core feats ow pn "").jsonInc)) ∧
     (process_geojson_core feats ow pn "").csvInc =
       (keysOf ow).filter (fun k => decide (¬ some k ∈ feats.map (fun p => getEntry p "id")))) ∧
    ((process_geojson_core [[("id", "A")], [("id", "B")]] [("A", ["Alice"]), ("C", ["Bob"])]
        "Propriétaires" "").jsonInc = [some "B"] ∧
     (process_geojson_core [[("id", "A")], [("id", "B")]] [("A", ["Alice"]), ("C", ["Bob"])]
        "Propriétaires" "").csvInc = ["C"] ∧
     ∃ propsA, (process_geojson_core [[("id", "A")], [("id", "B")]]
        [("A", ["Alice"]), ("C", ["Bob"])] "Propriétaires" "").features[0]? = some propsA ∧
       getEntry propsA "Propriétaires" = some "Alice") := by
  refine ⟨⟨?_, ?_⟩, by decide, by decide,
    ⟨[("id", "A"), ("Propriétaires", "Alice")], by decide, by decide⟩⟩
  · intro i props hi
    constructor
    · intro os hl
      refine ⟨setEntry props pn (String.intercalate ", " os), ?_, ?_⟩
      · rw [process_geojson_core_eq]
        simp only [List.getElem?_map, hi, Option.map_some']
        have : updateFeature ow pn "" props = setEntry props pn (String.intercalate ", " os) := by
          simp [updateFeature, hl, updateMatched]
        rw [this]
      · rw [getEntry_setEntry]
        simp
    · intro hl
      constructor
      · rw [process_geojson_core_eq]
        simp only [List.getElem?_map, hi, Option.map_some']
        have : updateFeature ow pn "" props = props := by
          simp only [updateFeature, hl]
        rw [this]
      · rw [process_geojson_core_eq]
        have hmem : props ∈ feats.filter
            (fun p => !(lookupOw ow (getEntry p "id")).isSome) :=
          List.mem_filter.mpr ⟨List.getElem?_mem hi, by rw [hl]; rfl⟩
        exact List.mem_map_of_mem _ hmem
  · rw [process_geojson_core_eq]
    show csvIncOf ow (feats.map (updateFeature ow pn "")) = _
    rw [csvIncOf]
    have hids : (feats.map (updateFeature ow pn "")).map (fun p => getEntry p "id") =
        feats.map (fun p => getEntry p "id") := by
      rw [List.map_map]
      exact List.map_congr_left (fun p _ => getEntry_id_updateFeature ow pn "" hpn p)
    rw [hids]

/-- Closed instance of `C3_merge_classification`: the spec example. -/
theorem C3_merge_classification_witness :
    (process_geojson_core [[("id", "A")], [("id", "B")]] [("A", ["Alice"]), ("C", ["Bob"])]
        "Propriétaires" "").jsonInc = [some "B"] ∧
    (process_geojson_core [[("id", "A")], [("id", "B")]] [("A", ["Alice"]), ("C", ["Bob"])]
        "Propriétaires" "").csvInc = ["C"] ∧
    ∃ propsA, (process_geojson_core [[("id", "A")], [("id", "B")]]
        [("A", ["Alice"]), ("C", ["Bob"])] "Propriétaires" "").features[0]? = some propsA ∧
      getEntry propsA "Propriétaires" = some "Alice" :=
  (C3_merge_classification [] [] "Propriétaires" (by decide)).2

/-! ### Claim C7 -/

/-- C7: running the merge twice in sequence (the second run taking the first
run output as its geometry input, with the same OwnersByParcel) yields
exactly the same feature properties as running it once: the per-owner and
aggregate writes are replayed onto the already-written keys with the same
values.  (The aggregate property name must differ from `id`, and the
property bags of a JSON feature have no duplicate keys.) -/
theorem C7_merge_idempotent (feats : List Props) (ow : List (String × List String))
    (pn base : String) (hpn : pn ≠ "id")
    (hnd : ∀ props ∈ feats, (keysOf props).Nodup) :
    (process_geojson_core (process_geojson_core feats ow pn base).features ow pn base).features
      = (process_geojson_core feats ow pn base).features := by
  simp only [process_geojson_core_eq]
  rw [List.map_map]
  refine List.map_congr_left ?_
  intro p hp
  show updateFeature ow pn base (updateFeature ow pn base p) = updateFeature ow pn base p
  have hndp := hnd p hp
  cases hl : lookupOw ow (getEntry p "id") with
  | none =>
    simp only [updateFeature, hl]
  | some os =>
    set q := updateFeature ow pn base p with hq
    have hid : getEntry q "id" = getEntry p "id" := by
      rw [hq]
      exact getEntry_id_updateFeature ow pn base hpn p
    have hl2 : lookupOw ow (getEntry q "id") = some os := by rw [hid, hl]
    have houter : updateFeature ow pn base q = updateMatched pn base os q := by
      simp only [updateFeature, hl2]
    have hinner : q = updateMatched pn base os p := by
      rw [hq]
      simp only [updateFeature, hl]
    rw [houter, hinner, updateMatched_eq_applyAll, updateMatched_eq_applyAll]
    exact applyAll_idem p (matchSeq pn base os) hndp

/-- Closed instance of `C7_merge_idempotent` with the individual-owner
expansion enabled. -/
theorem C7_merge_idempotent_witness :
    (process_geojson_core
        (process_geojson_core [[("id", "A")]] [("A", ["Alice", "Bob"])]
          "Propriétaires" "Propriétaire").features
        [("A", ["Alice", "Bob"])] "Propriétaires" "Propriétaire").features
      = (process_geojson_core [[("id", "A")]] [("A", ["Alice", "Bob"])]
          "Propriétaires" "Propriétaire").features :=
  C7_merge_idempotent [[("id", "A")]] [("A", ["Alice", "Bob"])]
    "Propriétaires" "Propriétaire" (by decide) (by decide)

/-! ### Claim C8 -/

/-- C8: with a non-empty individual-owner base name, every matched feature
with owner list `os` receives, for each 0-based position `i`, a property
named `<base> <i+1>` holding the owner at that position, in list order. -/
theorem C8_individual_expansion (feats : List Props) (ow : List (String × List String))
    (pn base : String) (hbase : base ≠ "")
    (hnd : ∀ kos ∈ ow, (keysOf (indivSeq base 1 kos.2)).Nodup) :
    ∀ (j : Nat) (props : Props) (os : List String), feats[j]? = some props →
      lookupOw ow (getEntry props "id") = some os →
      ∀ (i : Nat) (o : String), os[i]? = some o →
        ∃ props', (process_geojson_core feats ow pn base).features[j]? = some props' ∧
          getEntry props' (indivName base (i + 1)) = some o := by
  intro j props os hj hl i o hio
  obtain ⟨k, hidk, howk⟩ : ∃ k, getEntry props "id" = some k ∧ getEntry ow k = some os := by
    cases hid : getEntry props "id" with
    | none => rw [hid] at hl; exact absurd hl (by simp [lookupOw])
    | some k =>
      rw [hid] at hl
      exact ⟨k, rfl, hl⟩
  have hmem_ow : (k, os) ∈ ow := getEntry_mem ow k os howk
  have hnd_os : (keysOf (indivSeq base 1 os)).Nodup := hnd (k, os) hmem_ow
  have hfeat : (process_geojson_core feats ow pn base).features[j]? =
      some (updateMatched pn base os props) := by
    rw [process_geojson_core_eq]
    simp only [List.getElem?_map, hj, Option.map_some']
    have : updateFeature ow pn base props = updateMatched pn base os props := by
      simp only [updateFeature, hl]
    rw [this]
  refine ⟨updateMatched pn base os props, hfeat, ?_⟩
  rw [updateMatched_eq_applyAll, getEntry_applyAll]
  have hmem_seq : (indivName base (1 + i), o) ∈ indivSeq base 1 os :=
    mem_indivSeq_of_getElem base os 1 i o hio
  have hfl : findLast (indivSeq base 1 os) (indivName base (1 + i)) = some o :=
    findLast_of_nodup _ _ _ hnd_os hmem_seq
  rw [show i + 1 = 1 + i from Nat.add_comm i 1]
  simp only [matchSeq, if_neg hbase, findLast, hfl]

/-- Closed instance of `C8_individual_expansion` at the spec example
(`["Alice", "Bob"]` with base name `"Propriétaire"`). -/
theorem C8_individual_expansion_witness :
    ∃ props', (process_geojson_core [[("id", "A")]] [("A", ["Alice", "Bob"])]
        "Propriétaires" "Propriétaire").features[0]? = some props' ∧
      getEntry props' (indivName "Propriétaire" (1 + 1)) = some "Bob" :=
  C8_individual_expansion [[("id", "A")]] [("A", ["Alice", "Bob"])]
    "Propriétaires" "Propriétaire" (by decide) (by decide)
    0 [("id", "A")] ["Alice", "Bob"] (by decide) (by decide) 1 "Bob" (by decide)

/-! ### Claim C10 -/

/-- C10: a feature whose properties have no `id` key does not break the
merge: it is treated as id `None`, left unchanged, and recorded as a
JSON-side inconsistency; in general every feature is either counted as
processed or recorded in the JSON-side list. -/
theorem C10_missing_id (feats : List Props) (ow : List (String × List String))
    (pn base : String) :
    ((process_geojson_core feats ow pn base).processedCount +
      (process_geojson_core feats ow pn base).jsonInc.length = feats.length) ∧
    ∀ (i : Nat) (props : Props), feats[i]? = some props → getEntry props "id" = none →
      (process_geojson_core feats ow pn base).features[i]? = some props ∧
      none ∈ (process_geojson_core feats ow pn base).jsonInc := by
  constructor
  · rw [process_geojson_core_eq]
    simp only [List.length_map]
    exact filter_length_add _ feats
  · intro i props hi hid
    have hl : lookupOw ow (getEntry props "id") = none := by rw [hid]; rfl
    constructor
    · rw [process_geojson_core_eq]
      simp only [List.getElem?_map, hi, Option.map_some']
      have : updateFeature ow pn base props = props := by
        simp only [updateFeature, hl]
      rw [this]
    · rw [process_geojson_core_eq]
      have hmem : props ∈ feats.filter
          (fun p => !(lookupOw ow (getEntry p "id")).isSome) :=
        List.mem_filter.mpr ⟨List.getElem?_mem hi, by rw [hl]; rfl⟩
      have hmap : getEntry props "id" ∈
          (feats.filter (fun p => !(lookupOw ow (getEntry p "id")).isSome)).map
            (fun p => getEntry p "id") :=
        List.mem_map_of_mem _ hmem
      rw [hid] at hmap
      exact hmap

/-- Closed instance of `C10_missing_id`: a feature without an `id` key is
kept unchanged and reported as inconsistency `None`. -/
theorem C10_missing_id_witness :
    (process_geojson_core [[("name", "x")]] [("A", ["Bob"])] "Propriétaires" "").features[0]? =
      some [("name", "x")] ∧
    none ∈ (process_geojson_core [[("name", "x")]] [("A", ["Bob"])] "Propriétaires" "").jsonInc :=
  (C10_missing_id [[("name", "x")]] [("A", ["Bob"])] "Propriétaires" "").2 0 [("name", "x")]
    (by decide) (by decide)

/-! ### Overwrite confirmation and full run (src/geojson_handler.py) -/

/-- Python `str.lower` restricted to ASCII (character-wise lowering; the
responses of interest are ASCII). -/
def strLower (s : String) : String := ⟨s.data.map Char.toLower⟩

/-- Embedding of `confirm_overwrite`: when the output file exists, the user
response (lower-cased) must be `yes` or `y`; otherwise no prompt is needed
and the write proceeds. -/
def confirm_overwrite (fileExists : Bool) (response : String) : Bool :=
  if fileExists then (strLower response = "yes" || strLower response = "y") else true

/-- Observable outcome of a full `process_geojson` run: the merge result,
which inconsistency reports were exported (the code exports each non-empty
list before the overwrite prompt), whether and what `write_geojson` wrote,
and the return value. -/
structure GeoRun where
  merged : GeoMerge
  jsonIncExported : Option (List (Option String))
  csvIncExported : Option (List String)
  geojsonWritten : Option (List Props)
  returnValue : Bool
deriving DecidableEq

/-- Embedding of `process_geojson` (src/geojson_handler.py): merge, export
the non-empty inconsistency lists, then handle overwriting — `gui` mode
writes without a console prompt; any other mode asks, and a declined
confirmation returns `False` without writing. -/
def process_geojson (feats : List Props) (ow : List (String × List String))
    (pn base mode : String) (fileExists : Bool) (response : String) : GeoRun :=
  let core := process_geojson_core feats ow pn base
  let jexp := if core.jsonInc = [] then none else some core.jsonInc
  let cexp := if core.csvInc = [] then none else some core.csvInc
  if mode = "gui" then
    { merged := core, jsonIncExported := jexp, csvIncExported := cexp,
      geojsonWritten := some core.features, returnValue := true }
  else if confirm_overwrite fileExists response then
    { merged := core, jsonIncExported := jexp, csvIncExported := cexp,
      geojsonWritten := some core.features, returnValue := true }
  else
    { merged := core, jsonIncExported := jexp, csvIncExported := cexp,
      geojsonWritten := none, returnValue := false }

/-! ### Claim C9 -/

/-- C9 counterexample: in `ask` mode with an existing output file and a
declining response, the run does return `False` and writes no GeoJSON — but
it is not true that it "produces no output": the CSV-side inconsistency
report (here `["Y"]`) was already exported before the prompt. -/
theorem C9_counterexample :
    (process_geojson [[("id", "X")]] [("Y", ["Bob"])] "Propriétaires" "" "ask" true "n").returnValue
        = false ∧
    (process_geojson [[("id", "X")]] [("Y", ["Bob"])] "Propriétaires" "" "ask" true "n").geojsonWritten
        = none ∧
    (process_geojson [[("id", "X")]] [("Y", ["Bob"])] "Propriétaires" "" "ask" true "n").csvIncExported
        = some ["Y"] ∧
    (process_geojson [[("id", "X")]] [("Y", ["Bob"])] "Propriétaires" "" "ask" true "n").jsonIncExported
        = some [some "X"] := by
  refine ⟨?_, ?_, ?_, ?_⟩ <;> decide

/-- C9 (amended): when the output GeoJSON exists and the user declines the
confirmation in `ask` mode, `process_geojson` terminates cleanly, returns
`False`, and the output GeoJSON is not written; the inconsistency reports
found during the merge, however, have already been exported before the
prompt, so the run may still have produced those files. -/
theorem C9_cancelled_overwrite (feats : List Props) (ow : List (String × List String))
    (pn base response : String)
    (hr1 : strLower response ≠ "yes") (hr2 : strLower response ≠ "y") :
    (process_geojson feats ow pn base "ask" true response).returnValue = false ∧
    (process_geojson feats ow pn base "ask" true response).geojsonWritten = none := by
  have hconf : confirm_overwrite true response = false := by
    simp [confirm_overwrite, hr1, hr2]
  have hmode : ¬ (("ask" : String) = "gui") := by decide
  constructor <;>
    simp only [process_geojson, if_neg hmode, hconf, Bool.false_eq_true, if_false]

/-- Closed instance of `C9_cancelled_overwrite`. -/
theorem C9_cancelled_overwrite_witness :
    (process_geojson [] [] "Propriétaires" "" "ask" true "no").returnValue = false ∧
    (process_geojson [] [] "Propriétaires" "" "ask" true "no").geojsonWritten = none :=
  C9_cancelled_overwrite [] [] "Propriétaires" "" "no" (by decide) (by decide)
